import Mathlib

/-!
Verification of the LRU+TTL cache engine of this repository
(`src/src/lru_cache.cpp`, `src/include/lru_cache.h`, `src/include/node.h`)
against its natural-language specification.

Modelling choices (shallow embedding):
* `std::string` is modelled as `List Char` (`Str`); keys, values, log
  entries and file contents are all `Str`.
* The monotonic clock is modelled at one-second granularity: a
  `steady_clock::time_point` is a `Nat` number of seconds, so that
  `duration_cast<seconds>(now - ts).count()` is the plain difference
  `now - ts` computed in `Int`.
* The `unordered_map<string, Node*> cache` is modelled by the list of its
  keys (`index`); the doubly linked recency list between `head` and `tail`
  is modelled by the list `order` of node records, most-recently-used
  first.  The map's `Node*` values are recovered by looking the key up in
  `order`; the (unreachable when map and list agree) dangling-pointer case
  is modelled as a no-op branch.
* The WAL `std::ofstream*` is `Wal`: `.off` for a null pointer, `.on log
  good` for an attached stream holding the records written so far, `good`
  saying whether the next write succeeds (`good()` of the stream).
* File system reads are modelled by passing the file's contents to
  `loadFromWAL` as `Option Str` (`none` = the file is missing, ENOENT).
-/

/-- A byte string (`std::string`). -/
abbrev Str := List Char

/-- `struct Node` of `include/node.h`: key, value and last-touched instant.
The `prev`/`next` pointers are represented by the node's position in the
cache's `order` list. -/
structure Node where
  key : Str
  value : Str
  timestamp : Nat
  deriving DecidableEq, Repr

/-- The WAL stream pointer `std::ofstream* wal_stream_`. -/
inductive Wal where
  /-- `wal_stream_ == nullptr`: no WAL attached. -/
  | off : Wal
  /-- An attached stream: `log` is the sequence of records written so far,
  `good` whether the stream is healthy (the next `<<` succeeds). -/
  | on (log : List Str) (good : Bool) : Wal
  deriving DecidableEq, Repr

/-- `class LRUCache`: capacity, TTL, key index (the `unordered_map`'s key
set), recency list (MRU first) and the WAL stream. -/
structure LRUCache where
  capacity : Nat
  ttl_seconds : Int
  index : List Str
  order : List Node
  wal : Wal
  deriving DecidableEq, Repr

namespace LRUCache

/-- Constructor `LRUCache(cap, ttl)`: capacity 0 is coerced to 1 with a
diagnostic; the cache starts empty with no WAL attached. -/
def mkCache (cap : Nat) (ttl : Int) : LRUCache :=
  { capacity := if cap = 0 then 1 else cap
    ttl_seconds := ttl
    index := []
    order := []
    wal := .off }

/-- `setWalStream`: attach (or detach) the WAL stream. -/
def setWalStream (c : LRUCache) (w : Wal) : LRUCache :=
  { c with wal := w }

/-- The keys of the recency list, MRU first. -/
def keysOf (c : LRUCache) : List Str :=
  c.order.map (·.key)

/-- The node the map's `Node*` for `k` points at (the unique node with key
`k` in the recency list, when map and list agree). -/
def findNode (c : LRUCache) (k : Str) : Option Node :=
  c.order.find? (fun n => n.key == k)

/-- Unlink the node with key `k` from the recency list
(`removeNodeFromList` on the node the map holds for `k`). -/
def eraseKey (l : List Node) (k : Str) : List Node :=
  l.eraseP (fun n => n.key == k)

/-- `isExpired(node)`: TTL ≤ 0 disables expiration; otherwise expired iff
`duration_cast<seconds>(now - timestamp).count() > ttl_seconds`. -/
def isExpired (c : LRUCache) (n : Node) (now : Nat) : Bool :=
  if c.ttl_seconds ≤ 0 then false
  else decide (c.ttl_seconds < (now : Int) - (n.timestamp : Int))

/-- `removeInternal(node)`: erase the key from the map and the node from
the recency list (and free it). -/
def removeInternal (c : LRUCache) (k : Str) : LRUCache :=
  { c with index := c.index.erase k, order := eraseKey c.order k }

/-- `unordered_map` insertion `cache[key] = node`: a key is stored at most
once. -/
def insertKey (idx : List Str) (k : Str) : List Str :=
  if idx.contains k then idx else k :: idx

/-- `writeLogEntry(entry)`: a null stream is success; a healthy stream
appends the record and stays healthy; a bad stream fails the append and
the record is not written. -/
def writeLogEntry : Wal → Str → Bool × Wal
  | .off, _ => (true, .off)
  | .on log true, e => (true, .on (log ++ [e]) true)
  | .on log false, _ => (false, .on log false)

/-- The record `"PUT," + key + "," + value`. -/
def putEntry (k v : Str) : Str :=
  "PUT,".data ++ k ++ ",".data ++ v

/-- The record `"DEL," + key`. -/
def delEntry (k : Str) : Str :=
  "DEL,".data ++ k

/-- `get_sync(key)`: miss if absent; if present and expired, reap (without
logging) and miss; if present and live, move to MRU, reset the timestamp
and return the value. -/
def get_sync (c : LRUCache) (k : Str) (now : Nat) : Option Str × LRUCache :=
  if c.index.contains k then
    match findNode c k with
    | some n =>
      if isExpired c n now then (none, removeInternal c n.key)
      else (some n.value,
            { c with order := { n with timestamp := now } :: eraseKey c.order n.key })
    | none => (none, c)    -- dangling map entry: unreachable when map and list agree
  else (none, c)

/-- `put_sync(key, value, is_recovery)`.  An existing expired node is
reaped *before* the WAL append (as in the source); the PUT record is
logged before the memory mutation unless in recovery; a failed append
aborts the operation; otherwise the node is updated (if it existed live)
or inserted, evicting the LRU node when the map is at capacity. -/
def put_sync (c : LRUCache) (k v : Str) (is_recovery : Bool) (now : Nat) :
    Bool × LRUCache :=
  -- find the existing node, treating an expired one as absent (and reaping it)
  let p : Option Node × LRUCache :=
    if c.index.contains k then
      match findNode c k with
      | some n =>
        if isExpired c n now then (none, removeInternal c n.key) else (some n, c)
      | none => (none, c)  -- dangling map entry: unreachable when map and list agree
    else (none, c)
  let c1 := p.2
  -- log BEFORE changing state (if not in recovery)
  let q : Bool × Wal :=
    if is_recovery then (true, c1.wal) else writeLogEntry c1.wal (putEntry k v)
  if q.1 = false then (false, { c1 with wal := q.2 })
  else
    let c2 := { c1 with wal := q.2 }
    match p.1 with
    | some n =>
      -- update existing node: new value, fresh timestamp, move to head
      (true, { c2 with order := { n with value := v, timestamp := now } ::
                                 eraseKey c2.order n.key })
    | none =>
      -- insert new node, evicting the tail node if at capacity
      let c3 :=
        if c2.capacity ≤ c2.index.length then
          match c2.order.getLast? with
          | some t => { c2 with index := c2.index.erase t.key,
                                order := c2.order.dropLast }
          | none => c2   -- popTail returned nullptr: empty list
        else c2
      (true, { c3 with index := insertKey c3.index k,
                       order := ⟨k, v, now⟩ :: c3.order })

/-- `remove_sync(key, is_recovery)`: an absent key is a trivial success
(note: the source returns before logging in that case); otherwise a DEL
record is logged (unless in recovery; a failed append aborts) and the node
is removed. -/
def remove_sync (c : LRUCache) (k : Str) (is_recovery : Bool) :
    Bool × LRUCache :=
  if c.index.contains k then
    let q : Bool × Wal :=
      if is_recovery then (true, c.wal) else writeLogEntry c.wal (delEntry k)
    if q.1 = false then (false, { c with wal := q.2 })
    else (true, removeInternal { c with wal := q.2 } k)
  else (true, c)

/-- Public `get`. -/
def get (c : LRUCache) (k : Str) (now : Nat) : Option Str × LRUCache :=
  get_sync c k now

/-- Public `put` (not recovery). -/
def put (c : LRUCache) (k v : Str) (now : Nat) : Bool × LRUCache :=
  put_sync c k v false now

/-- Public `remove` (not recovery). -/
def remove (c : LRUCache) (k : Str) : Bool × LRUCache :=
  remove_sync c k false

/-- `splitString(s, d)` with `std::getline(stream, token, d)` semantics:
trailing delimiter produces no empty final token; the empty string
produces no token at all.  Also models the line loop
`while (std::getline(file, line))` when `d = '\n'`. -/
def splitString (d : Char) : Str → List Str
  | [] => []
  | c :: cs =>
    if c = d then [] :: splitString d cs
    else
      match splitString d cs with
      | [] => [[c]]
      | t :: ts => (c :: t) :: ts

/-- One iteration of the recovery loop of `loadFromWAL`: skip empty or
malformed lines, apply `PUT,k,v` via `put_sync(..., is_recovery=true)` and
`DEL,k` via `remove_sync(..., is_recovery=true)`. -/
def replayLine (c : LRUCache) (line : Str) (now : Nat) : LRUCache :=
  if line = [] then c
  else
    match splitString ',' line with
    | [op, k, v] => if op = "PUT".data then (put_sync c k v true now).2 else c
    | [op, k] => if op = "DEL".data then (remove_sync c k true).2 else c
    | _ => c

/-- The recovery loop over a list of lines. -/
def replayLines (c : LRUCache) (lines : List Str) (now : Nat) : LRUCache :=
  lines.foldl (fun a l => replayLine a l now) c

/-- `loadFromWAL`: a missing file (ENOENT) is a clean start and a success;
otherwise every line of the file is replayed and recovery reports
success. -/
def loadFromWAL (file : Option Str) (c : LRUCache) (now : Nat) :
    Bool × LRUCache :=
  match file with
  | none => (true, c)
  | some content => (true, replayLines c (splitString '\n' content) now)

/-- The records held by the WAL stream (empty when no stream is attached). -/
def walLog (c : LRUCache) : List Str :=
  match c.wal with
  | .off => []
  | .on log _ => log

/-- The contents of the WAL file: every record is written with
`*wal_stream_ << entry << std::endl`. -/
def fileOf (log : List Str) : Str :=
  (log.map (· ++ ['\n'])).flatten

/-- The state of the cache up to timestamps: the key/value bindings in
recency order, MRU first. -/
def proj (c : LRUCache) : List (Str × Str) :=
  c.order.map (fun n => (n.key, n.value))

/-- An operation issued by a client, with `get` included. -/
inductive Op where
  | put (key value : Str) : Op
  | del (key : Str) : Op
  | get (key : Str) : Op
  deriving DecidableEq, Repr

/-- Run one client operation at instant `now` (result discarded). -/
def runOp (c : LRUCache) (op : Op) (now : Nat) : LRUCache :=
  match op with
  | .put k v => (put_sync c k v false now).2
  | .del k => (remove_sync c k false).2
  | .get k => (get_sync c k now).2

/-- Run a timed sequence of client operations. -/
def run (c : LRUCache) (ops : List (Op × Nat)) : LRUCache :=
  ops.foldl (fun a p => runOp a p.1 p.2) c

/-- The structural invariant of the store: the recency list holds each key
at most once, the map's key set is exactly the recency list's key set, the
size is bounded by the capacity, and the capacity is positive. -/
structure WF (c : LRUCache) : Prop where
  nodup : (keysOf c).Nodup
  perm : c.index.Perm (keysOf c)
  size_le : c.order.length ≤ c.capacity
  cap_pos : 1 ≤ c.capacity

/-- The WAL is detached, or attached and healthy (the next append
succeeds). -/
def WalOk (c : LRUCache) : Prop :=
  c.wal = .off ∨ ∃ L, c.wal = .on L true

/-- A byte string that is representable in the unescaped CSV log format:
it contains neither the field separator nor the record terminator. -/
def GoodStr (s : Str) : Prop :=
  ',' ∉ s ∧ '\n' ∉ s

instance : DecidablePred GoodStr := fun s => by
  unfold GoodStr; infer_instance

/-- A mutation whose log record replays exactly: key and value are
non-empty and free of comma/newline.  `get` is excluded (it is not a
mutation and writes no record). -/
def GoodOp : Op → Prop
  | .put k v => GoodStr k ∧ GoodStr v ∧ k ≠ [] ∧ v ≠ []
  | .del k => GoodStr k ∧ k ≠ []
  | .get _ => False

instance : DecidablePred GoodOp := fun op => by
  cases op <;> (unfold GoodOp; infer_instance)

/-- A log line that the recovery loop skips: empty, wrong tag, or wrong
arity (anything other than a three-field `PUT` or a two-field `DEL`). -/
def Malformed (l : Str) : Prop :=
  match splitString ',' l with
  | [op, _, _] => op ≠ "PUT".data
  | [op, _] => op ≠ "DEL".data
  | _ => True

instance : DecidablePred Malformed := fun l => by
  unfold Malformed
  rcases splitString ',' l with _ | ⟨op, _ | ⟨k, _ | ⟨v, _ | _⟩⟩⟩ <;> simp <;> infer_instance

/-- A fresh cache of configured capacity `cap` with a healthy WAL stream
attached, as the server sets it up after recovery. -/
def freshWithWal (cap : Nat) (ttl : Int) : LRUCache :=
  setWalStream (mkCache cap ttl) (.on [] true)

/-- Correspondence between the state `c` of the original run and the
state `r` of replaying `c`'s log at instant `nowR`: both are structurally
well formed, they agree on capacity and — up to timestamps — on the
bindings and their recency order; every replayed entry carries the replay
instant; and the original cache's WAL is attached, healthy and holds only
newline-free records. -/
def Corr (nowR : Nat) (c r : LRUCache) : Prop :=
  WF c ∧ WF r ∧ proj r = proj c ∧ r.capacity = c.capacity ∧
  (∀ n ∈ r.order, n.timestamp = nowR) ∧
  (∃ L, c.wal = .on L true ∧ ∀ e ∈ L, '\n' ∉ e)

end LRUCache

section Sanity
open LRUCache

-- S1 basic eviction: capacity 3, TTL 0; D evicts A.
example :
    proj (run (mkCache 3 0)
      [(.put "A".data "1".data, 0), (.put "B".data "2".data, 0),
       (.put "C".data "3".data, 0), (.put "D".data "4".data, 0)]) =
    [("D".data, "4".data), ("C".data, "3".data), ("B".data, "2".data)] := by
  decide

-- S2 recency reshuffle: Get(A) saves A; B is evicted.
example :
    proj (run (mkCache 3 0)
      [(.put "A".data "1".data, 0), (.put "B".data "2".data, 0),
       (.put "C".data "3".data, 0), (.get "A".data, 0),
       (.put "D".data "4".data, 0)]) =
    [("D".data, "4".data), ("A".data, "1".data), ("C".data, "3".data)] := by
  decide

-- getline-style splitting: trailing delimiter yields no empty token.
example : splitString ',' "PUT,k,".data = ["PUT".data, "k".data] := by decide
example : splitString ',' "PUT,k,v".data = ["PUT".data, "k".data, "v".data] := by decide
example : splitString ',' "".data = [] := by decide
example : splitString ',' ",".data = [[]] := by decide

end Sanity

namespace LRUCache

/-! ### Generic list lemmas (bridging the two `BEq Str` instances) -/

theorem erase_beq_eq (l : List Str) (a : Str) :
    l.erase a = @List.erase Str instBEqOfDecidableEq l a := by
  induction l with
  | nil => rfl
  | cons x xs ih => simp only [List.erase_cons, ih, beq_iff_eq]

theorem perm_erase_str {l₁ l₂ : List Str} (a : Str) (p : l₁.Perm l₂) :
    (l₁.erase a).Perm (l₂.erase a) := by
  rw [erase_beq_eq, erase_beq_eq]; exact p.erase a

theorem perm_cons_erase_str {l : List Str} {a : Str} (h : a ∈ l) :
    l.Perm (a :: l.erase a) := by
  rw [erase_beq_eq]; exact List.perm_cons_erase h

theorem nodup_erase_str {l : List Str} (a : Str) (h : l.Nodup) :
    (l.erase a).Nodup :=
  h.erase a

theorem mem_erase_str {l : List Str} {a b : Str} (h : l.Nodup) :
    a ∈ l.erase b ↔ a ≠ b ∧ a ∈ l :=
  h.mem_erase_iff

theorem contains_iff_mem {l : List Str} {k : Str} : l.contains k = true ↔ k ∈ l :=
  List.elem_iff

theorem contains_false_iff {l : List Str} {k : Str} : l.contains k = false ↔ k ∉ l := by
  constructor
  · intro h hm
    rw [contains_iff_mem.mpr hm] at h
    cases h
  · intro h
    cases hc : l.contains k with
    | false => rfl
    | true => exact absurd (contains_iff_mem.mp hc) h

/-! ### `eraseKey`, `keysOf`, `findNode` -/

theorem keys_eraseKey (l : List Node) (k : Str) :
    (eraseKey l k).map (·.key) = (l.map (·.key)).erase k := by
  induction l with
  | nil => rfl
  | cons n t ih =>
    by_cases h : n.key = k
    · simp [eraseKey, List.eraseP_cons, List.erase_cons, h]
    · simp only [eraseKey, List.eraseP_cons, List.erase_cons] at ih ⊢
      simp [h, beq_false_of_ne h, ih]

theorem eraseKey_sublist (l : List Node) (k : Str) : (eraseKey l k).Sublist l :=
  List.eraseP_sublist l

theorem length_eraseKey_of_mem {l : List Node} {k : Str}
    (h : k ∈ l.map (·.key)) : (eraseKey l k).length = l.length - 1 := by
  have := congrArg List.length (keys_eraseKey l k)
  simpa [List.length_erase_of_mem h] using this

theorem findNode_eq_none {c : LRUCache} {k : Str} :
    findNode c k = none ↔ k ∉ keysOf c := by
  simp [findNode, List.find?_eq_none, keysOf]

theorem findNode_some {c : LRUCache} {k : Str} {n : Node}
    (h : findNode c k = some n) : n.key = k ∧ n ∈ c.order := by
  have h1 := List.find?_some h
  have h2 := List.mem_of_find?_eq_some h
  exact ⟨by simpa using h1, h2⟩

theorem findNode_isSome {c : LRUCache} {k : Str} (h : k ∈ keysOf c) :
    ∃ n, findNode c k = some n := by
  cases hf : findNode c k with
  | none => exact absurd (findNode_eq_none.mp hf) (not_not_intro h)
  | some n => exact ⟨n, rfl⟩

theorem mem_keysOf_of_findNode {c : LRUCache} {k : Str} {n : Node}
    (h : findNode c k = some n) : k ∈ keysOf c := by
  obtain ⟨hk, hm⟩ := findNode_some h
  exact hk ▸ List.mem_map_of_mem _ hm

/-! ### WAL append -/

theorem writeLogEntry_off (e : Str) : writeLogEntry .off e = (true, .off) := rfl

theorem writeLogEntry_good (L : List Str) (e : Str) :
    writeLogEntry (.on L true) e = (true, .on (L ++ [e]) true) := rfl

theorem writeLogEntry_bad (L : List Str) (e : Str) :
    writeLogEntry (.on L false) e = (false, .on L false) := rfl

theorem writeLogEntry_fst_of_walOk {c : LRUCache} (h : WalOk c) (e : Str) :
    (writeLogEntry c.wal e).1 = true := by
  rcases h with h | ⟨L, h⟩ <;> simp [h, writeLogEntry]

theorem WF.contains_iff {c : LRUCache} (h : WF c) (k : Str) :
    c.index.contains k = true ↔ k ∈ keysOf c := by
  rw [contains_iff_mem]
  exact ⟨fun hm => h.perm.mem_iff.mp hm, fun hm => h.perm.mem_iff.mpr hm⟩

end LRUCache

namespace LRUCache

/-! ### Characterisation of `get_sync` -/

theorem get_sync_absent {c : LRUCache} {k : Str} (now : Nat)
    (hc : c.index.contains k = false) :
    get_sync c k now = (none, c) := by
  have hm : k ∉ c.index := contains_false_iff.mp hc
  simp [get_sync, hm]

theorem get_sync_expired {c : LRUCache} {k : Str} {n : Node} (now : Nat)
    (hc : c.index.contains k = true) (hf : findNode c k = some n)
    (he : isExpired c n now = true) :
    get_sync c k now = (none, removeInternal c n.key) := by
  have hm : k ∈ c.index := contains_iff_mem.mp hc
  simp [get_sync, hm, hf, he]

theorem get_sync_live {c : LRUCache} {k : Str} {n : Node} (now : Nat)
    (hc : c.index.contains k = true) (hf : findNode c k = some n)
    (he : isExpired c n now = false) :
    get_sync c k now =
      (some n.value,
       { c with order := { n with timestamp := now } :: eraseKey c.order n.key }) := by
  have hm : k ∈ c.index := contains_iff_mem.mp hc
  simp [get_sync, hm, hf, he]

/-! ### Characterisation of `remove_sync` -/

theorem remove_sync_absent {c : LRUCache} {k : Str} (rec : Bool)
    (hc : c.index.contains k = false) :
    remove_sync c k rec = (true, c) := by
  have hm : k ∉ c.index := contains_false_iff.mp hc
  simp [remove_sync, hm]

theorem remove_sync_recovery {c : LRUCache} {k : Str}
    (hc : c.index.contains k = true) :
    remove_sync c k true = (true, removeInternal c k) := by
  have hm : k ∈ c.index := contains_iff_mem.mp hc
  simp [remove_sync, hm, removeInternal]

theorem remove_sync_off {c : LRUCache} {k : Str}
    (hc : c.index.contains k = true) (hw : c.wal = .off) :
    remove_sync c k false = (true, removeInternal c k) := by
  have hm : k ∈ c.index := contains_iff_mem.mp hc
  obtain ⟨cap, ttl, idx, ord, wal⟩ := c
  cases hw
  simp [remove_sync, hm, writeLogEntry, removeInternal]

theorem remove_sync_good {c : LRUCache} {k : Str} {L : List Str}
    (hc : c.index.contains k = true) (hw : c.wal = .on L true) :
    remove_sync c k false =
      (true, removeInternal { c with wal := .on (L ++ [delEntry k]) true } k) := by
  have hm : k ∈ c.index := contains_iff_mem.mp hc
  simp [remove_sync, hm, hw, writeLogEntry, removeInternal]

theorem remove_sync_bad {c : LRUCache} {k : Str} {L : List Str}
    (hc : c.index.contains k = true) (hw : c.wal = .on L false) :
    remove_sync c k false = (false, c) := by
  have hm : k ∈ c.index := contains_iff_mem.mp hc
  obtain ⟨cap, ttl, idx, ord, wal⟩ := c
  cases hw
  simp at hm
  simp [remove_sync, hm, writeLogEntry]

end LRUCache

namespace LRUCache

/-! ### Characterisation of `put_sync` -/

theorem put_sync_fresh {c : LRUCache} {k v : Str} {rec : Bool} {w' : Wal} (now : Nat)
    (hc : c.index.contains k = false)
    (hq : (if rec = true then ((true : Bool), c.wal)
           else writeLogEntry c.wal (putEntry k v)) = (true, w'))
    (hlen : c.index.length < c.capacity) :
    put_sync c k v rec now =
      (true, { c with wal := w', index := k :: c.index,
                      order := ⟨k, v, now⟩ :: c.order }) := by
  have hm : k ∉ c.index := contains_false_iff.mp hc
  simp [put_sync, hm, hq, insertKey, hc, Nat.not_le.mpr hlen]

theorem put_sync_evict {c : LRUCache} {k v : Str} {rec : Bool} {w' : Wal}
    {t : Node} (now : Nat)
    (hc : c.index.contains k = false)
    (hq : (if rec = true then ((true : Bool), c.wal)
           else writeLogEntry c.wal (putEntry k v)) = (true, w'))
    (hlen : c.capacity ≤ c.index.length)
    (hlast : c.order.getLast? = some t) :
    put_sync c k v rec now =
      (true, { c with wal := w', index := k :: c.index.erase t.key,
                      order := ⟨k, v, now⟩ :: c.order.dropLast }) := by
  have hm : k ∉ c.index := contains_false_iff.mp hc
  have hm' : k ∉ c.index.erase t.key :=
    fun h => hm ((List.erase_sublist _ _).subset h)
  simp [put_sync, hm, hq, hlen, hlast, insertKey, hm']

theorem put_sync_live {c : LRUCache} {k v : Str} {n : Node} {rec : Bool}
    {w' : Wal} (now : Nat)
    (hc : c.index.contains k = true) (hf : findNode c k = some n)
    (he : isExpired c n now = false)
    (hq : (if rec = true then ((true : Bool), c.wal)
           else writeLogEntry c.wal (putEntry k v)) = (true, w')) :
    put_sync c k v rec now =
      (true, { c with wal := w',
                      order := { n with value := v, timestamp := now } ::
                               eraseKey c.order n.key }) := by
  have hm : k ∈ c.index := contains_iff_mem.mp hc
  simp [put_sync, hm, hf, he, hq]

theorem put_sync_reap {c : LRUCache} {k v : Str} {n : Node} {rec : Bool}
    {w' : Wal} (now : Nat)
    (hc : c.index.contains k = true) (hf : findNode c k = some n)
    (he : isExpired c n now = true)
    (hq : (if rec = true then ((true : Bool), c.wal)
           else writeLogEntry c.wal (putEntry k v)) = (true, w'))
    (hnd : c.index.Nodup) (hlen : c.index.length ≤ c.capacity) :
    put_sync c k v rec now =
      (true, { c with wal := w', index := k :: c.index.erase k,
                      order := ⟨k, v, now⟩ :: eraseKey c.order n.key }) := by
  have hm : k ∈ c.index := contains_iff_mem.mp hc
  have hkey : n.key = k := (findNode_some hf).1
  have h2 : 1 ≤ c.index.length := List.length_pos.mpr (List.ne_nil_of_mem hm)
  have hlt : ¬ c.capacity ≤ c.index.length - 1 := by omega
  have hm' : k ∉ c.index.erase k := fun h => ((mem_erase_str hnd).mp h).1 rfl
  simp [put_sync, hm, hf, he, hkey, hq, removeInternal, hlt, insertKey, hm']

theorem put_sync_evict_none {c : LRUCache} {k v : Str} {rec : Bool} {w' : Wal} (now : Nat)
    (hc : c.index.contains k = false)
    (hq : (if rec = true then ((true : Bool), c.wal)
           else writeLogEntry c.wal (putEntry k v)) = (true, w'))
    (hlen : c.capacity ≤ c.index.length)
    (hlast : c.order.getLast? = none) :
    put_sync c k v rec now =
      (true, { c with wal := w', index := k :: c.index,
                      order := ⟨k, v, now⟩ :: c.order }) := by
  have hm : k ∉ c.index := contains_false_iff.mp hc
  simp [put_sync, hm, hq, hlen, hlast, insertKey]

theorem put_sync_fail_absent {c : LRUCache} {k v : Str} {w' : Wal} (now : Nat)
    (hc : c.index.contains k = false)
    (hq : writeLogEntry c.wal (putEntry k v) = (false, w')) :
    put_sync c k v false now = (false, { c with wal := w' }) := by
  have hm : k ∉ c.index := contains_false_iff.mp hc
  simp [put_sync, hm, hq]

theorem put_sync_fail_live {c : LRUCache} {k v : Str} {n : Node} {w' : Wal} (now : Nat)
    (hc : c.index.contains k = true) (hf : findNode c k = some n)
    (he : isExpired c n now = false)
    (hq : writeLogEntry c.wal (putEntry k v) = (false, w')) :
    put_sync c k v false now = (false, { c with wal := w' }) := by
  have hm : k ∈ c.index := contains_iff_mem.mp hc
  simp [put_sync, hm, hf, he, hq]

theorem put_sync_fail_reap {c : LRUCache} {k v : Str} {n : Node} {w' : Wal} (now : Nat)
    (hc : c.index.contains k = true) (hf : findNode c k = some n)
    (he : isExpired c n now = true)
    (hq : writeLogEntry c.wal (putEntry k v) = (false, w')) :
    put_sync c k v false now =
      (false, { c with wal := w', index := c.index.erase n.key,
                       order := eraseKey c.order n.key }) := by
  have hm : k ∈ c.index := contains_iff_mem.mp hc
  simp [put_sync, hm, hf, he, hq, removeInternal]

end LRUCache

namespace LRUCache

/-! ### Preservation of the structural invariant -/

theorem keys_removeInternal (c : LRUCache) (k : Str) :
    keysOf (removeInternal c k) = (keysOf c).erase k := by
  simp [keysOf, removeInternal, keys_eraseKey]

theorem WF.len_eq {c : LRUCache} (h : WF c) : c.index.length = c.order.length := by
  simpa [keysOf] using h.perm.length_eq

theorem WF.index_nodup {c : LRUCache} (h : WF c) : c.index.Nodup :=
  h.perm.nodup_iff.mpr h.nodup

theorem WF.mk_cache (cap : Nat) (ttl : Int) : WF (mkCache cap ttl) := by
  constructor <;> simp [mkCache, keysOf]
  split <;> omega

theorem WF.fresh_with_wal (cap : Nat) (ttl : Int) : WF (freshWithWal cap ttl) := by
  constructor <;> simp [freshWithWal, mkCache, setWalStream, keysOf]
  split <;> omega

theorem WF.wal_update {c : LRUCache} (h : WF c) (w : Wal) :
    WF { c with wal := w } := by
  obtain ⟨h1, h2, h3, h4⟩ := h
  exact ⟨h1, h2, h3, h4⟩

theorem WF.remove_internal {c : LRUCache} (h : WF c) (k : Str) :
    WF (removeInternal c k) := by
  refine ⟨?_, ?_, ?_, h.cap_pos⟩
  · rw [keys_removeInternal]
    exact nodup_erase_str k h.nodup
  · rw [keys_removeInternal]
    exact perm_erase_str k h.perm
  · calc (removeInternal c k).order.length ≤ c.order.length :=
          (eraseKey_sublist _ _).length_le
      _ ≤ c.capacity := h.size_le

theorem keysOf_last {c : LRUCache} (h : WF c) {t : Node}
    (hlast : c.order.getLast? = some t) :
    (keysOf c).erase t.key = (keysOf c).dropLast ∧ t.key ∉ (keysOf c).dropLast := by
  have hne : c.order ≠ [] := by
    intro e
    rw [e] at hlast
    cases hlast
  have ht : t = c.order.getLast hne := by
    rw [List.getLast?_eq_getLast _ hne] at hlast
    exact (Option.some_inj.mp hlast).symm
  have horder : c.order.dropLast ++ [t] = c.order := by
    rw [ht]
    exact List.dropLast_append_getLast hne
  have hkeys : (keysOf c).dropLast ++ [t.key] = keysOf c := by
    conv_rhs => rw [keysOf, ← horder]
    rw [List.map_append, keysOf, ← List.map_dropLast]
    rfl
  have hnm : t.key ∉ (keysOf c).dropLast := by
    have := h.nodup
    rw [← hkeys, List.nodup_append] at this
    simpa using this.2.2
  refine ⟨?_, hnm⟩
  conv_lhs => rw [← hkeys]
  rw [List.erase_append_right _ hnm, List.erase_cons_head, List.append_nil]

theorem WF.insert_fresh {c : LRUCache} (h : WF c) {k v : Str} {w' : Wal}
    (now : Nat) (hk : k ∉ keysOf c) (hlen : c.order.length < c.capacity) :
    WF { c with wal := w', index := k :: c.index,
                order := ⟨k, v, now⟩ :: c.order } := by
  refine ⟨?_, ?_, ?_, h.cap_pos⟩
  · show (((⟨k, v, now⟩ : Node) :: c.order).map (·.key)).Nodup
    rw [List.map_cons]
    exact List.nodup_cons.mpr ⟨hk, h.nodup⟩
  · show (k :: c.index).Perm (((⟨k, v, now⟩ : Node) :: c.order).map (·.key))
    rw [List.map_cons]
    exact h.perm.cons k
  · show ((⟨k, v, now⟩ : Node) :: c.order).length ≤ c.capacity
    rw [List.length_cons]
    omega

theorem WF.insert_evict {c : LRUCache} (h : WF c) {k v : Str} {w' : Wal}
    {t : Node} (now : Nat) (hk : k ∉ keysOf c)
    (hlast : c.order.getLast? = some t) :
    WF { c with wal := w', index := k :: c.index.erase t.key,
                order := ⟨k, v, now⟩ :: c.order.dropLast } := by
  obtain ⟨he, hnm⟩ := keysOf_last h hlast
  have hne : c.order ≠ [] := by
    intro e
    rw [e] at hlast
    cases hlast
  have hmapd : c.order.dropLast.map (·.key) = (keysOf c).dropLast :=
    List.map_dropLast _ _
  have hsub : (keysOf c).dropLast.Sublist (keysOf c) := List.dropLast_sublist _
  refine ⟨?_, ?_, ?_, h.cap_pos⟩
  · show (((⟨k, v, now⟩ : Node) :: c.order.dropLast).map (·.key)).Nodup
    rw [List.map_cons, hmapd]
    exact List.nodup_cons.mpr ⟨fun hm => hk (hsub.subset hm), h.nodup.sublist hsub⟩
  · show (k :: c.index.erase t.key).Perm
      (((⟨k, v, now⟩ : Node) :: c.order.dropLast).map (·.key))
    rw [List.map_cons, hmapd]
    exact ((perm_erase_str t.key h.perm).trans (he ▸ List.Perm.refl _)).cons k
  · show ((⟨k, v, now⟩ : Node) :: c.order.dropLast).length ≤ c.capacity
    rw [List.length_cons, List.length_dropLast]
    have h2 : 1 ≤ c.order.length := List.length_pos.mpr hne
    have := h.size_le
    omega

end LRUCache

namespace LRUCache

theorem length_pos_of_mem_keys {c : LRUCache} {k : Str} (hk : k ∈ keysOf c) :
    1 ≤ c.order.length := by
  rcases List.mem_map.mp hk with ⟨n, hn, _⟩
  exact List.length_pos.mpr (List.ne_nil_of_mem hn)

theorem WF.update_head {c : LRUCache} (h : WF c) {m : Node} {w' : Wal}
    (hk : m.key ∈ keysOf c) :
    WF { c with wal := w', order := m :: eraseKey c.order m.key } := by
  have hkeys : (eraseKey c.order m.key).map (·.key) = (keysOf c).erase m.key :=
    keys_eraseKey _ _
  refine ⟨?_, ?_, ?_, h.cap_pos⟩
  · show ((m :: eraseKey c.order m.key).map (·.key)).Nodup
    rw [List.map_cons, hkeys]
    exact List.nodup_cons.mpr
      ⟨fun hm => ((mem_erase_str h.nodup).mp hm).1 rfl, nodup_erase_str _ h.nodup⟩
  · show c.index.Perm ((m :: eraseKey c.order m.key).map (·.key))
    rw [List.map_cons, hkeys]
    exact h.perm.trans (perm_cons_erase_str hk)
  · show (m :: eraseKey c.order m.key).length ≤ c.capacity
    rw [List.length_cons, length_eraseKey_of_mem hk]
    have := length_pos_of_mem_keys hk
    have := h.size_le
    omega

theorem logStep_cases (c : LRUCache) (rec : Bool) (e : Str) :
    (∃ w', (if rec = true then ((true : Bool), c.wal)
            else writeLogEntry c.wal e) = (true, w'))
    ∨ (rec = false ∧ writeLogEntry c.wal e = (false, c.wal)) := by
  cases rec with
  | true => exact .inl ⟨c.wal, by simp⟩
  | false =>
    rcases hw : c.wal with _ | ⟨L, _ | _⟩
    · exact .inl ⟨.off, by simp [writeLogEntry]⟩
    · exact .inr ⟨rfl, by simp [writeLogEntry]⟩
    · exact .inl ⟨.on (L ++ [e]) true, by simp [writeLogEntry]⟩

theorem wf_put_sync {c : LRUCache} (h : WF c) (k v : Str) (rec : Bool) (now : Nat) :
    WF (put_sync c k v rec now).2 := by
  cases hc : c.index.contains k with
  | false =>
    have hk : k ∉ keysOf c := fun hm => by
      rw [(h.contains_iff k).mpr hm] at hc
      cases hc
    rcases logStep_cases c rec (putEntry k v) with ⟨w', hq⟩ | ⟨hrec, hq⟩
    · by_cases hlen : c.index.length < c.capacity
      · rw [put_sync_fresh now hc hq hlen]
        exact h.insert_fresh now hk (h.len_eq ▸ hlen)
      · have hlen' : c.capacity ≤ c.index.length := Nat.le_of_not_lt hlen
        have hone : c.order ≠ [] := by
          intro e
          have hlen0 : c.index.length = 0 := by rw [h.len_eq, e]; rfl
          rw [hlen0] at hlen'
          have := h.cap_pos
          omega
        cases hlast : c.order.getLast? with
        | none => exact absurd (List.getLast?_eq_none_iff.mp hlast) hone
        | some t =>
          rw [put_sync_evict now hc hq hlen' hlast]
          exact h.insert_evict now hk hlast
    · subst hrec
      rw [put_sync_fail_absent now hc hq]
      exact h.wal_update _
  | true =>
    have hk : k ∈ keysOf c := (h.contains_iff k).mp hc
    obtain ⟨n, hf⟩ := findNode_isSome hk
    have hkey : n.key = k := (findNode_some hf).1
    cases he : isExpired c n now with
    | false =>
      rcases logStep_cases c rec (putEntry k v) with ⟨w', hq⟩ | ⟨hrec, hq⟩
      · rw [put_sync_live now hc hf he hq]
        exact h.update_head (m := { n with value := v, timestamp := now }) (hkey ▸ hk)
      · subst hrec
        rw [put_sync_fail_live now hc hf he hq]
        exact h.wal_update _
    | true =>
      rcases logStep_cases c rec (putEntry k v) with ⟨w', hq⟩ | ⟨hrec, hq⟩
      · rw [put_sync_reap now hc hf he hq h.index_nodup (h.len_eq ▸ h.size_le)]
        have hkeys : (eraseKey c.order n.key).map (·.key) = (keysOf c).erase n.key :=
          keys_eraseKey _ _
        refine ⟨?_, ?_, ?_, h.cap_pos⟩
        · show (((⟨k, v, now⟩ : Node) :: eraseKey c.order n.key).map (·.key)).Nodup
          rw [List.map_cons, hkeys, hkey]
          exact List.nodup_cons.mpr
            ⟨fun hm => ((mem_erase_str h.nodup).mp hm).1 rfl, nodup_erase_str _ h.nodup⟩
        · show (k :: c.index.erase k).Perm
            (((⟨k, v, now⟩ : Node) :: eraseKey c.order n.key).map (·.key))
          rw [List.map_cons, hkeys, hkey]
          exact (perm_erase_str k h.perm).cons k
        · show ((⟨k, v, now⟩ : Node) :: eraseKey c.order n.key).length ≤ c.capacity
          rw [List.length_cons, length_eraseKey_of_mem (hkey ▸ hk)]
          have := length_pos_of_mem_keys hk
          have := h.size_le
          omega
      · subst hrec
        rw [put_sync_fail_reap now hc hf he hq]
        exact (h.remove_internal n.key).wal_update _

theorem wf_remove_sync {c : LRUCache} (h : WF c) (k : Str) (rec : Bool) :
    WF (remove_sync c k rec).2 := by
  cases hc : c.index.contains k with
  | false => rw [remove_sync_absent rec hc]; exact h
  | true =>
    cases rec with
    | true => rw [remove_sync_recovery hc]; exact h.remove_internal k
    | false =>
      rcases hw : c.wal with _ | ⟨L, _ | _⟩
      · rw [remove_sync_off hc hw]
        exact h.remove_internal k
      · rw [remove_sync_bad hc hw]
        exact h
      · rw [remove_sync_good hc hw]
        exact (h.wal_update _).remove_internal k

theorem wf_get_sync {c : LRUCache} (h : WF c) (k : Str) (now : Nat) :
    WF (get_sync c k now).2 := by
  cases hc : c.index.contains k with
  | false => rw [get_sync_absent now hc]; exact h
  | true =>
    have hk : k ∈ keysOf c := (h.contains_iff k).mp hc
    obtain ⟨n, hf⟩ := findNode_isSome hk
    have hkey : n.key = k := (findNode_some hf).1
    cases he : isExpired c n now with
    | true => rw [get_sync_expired now hc hf he]; exact h.remove_internal n.key
    | false =>
      rw [get_sync_live now hc hf he]
      exact h.update_head (m := { n with timestamp := now }) (hkey ▸ hk)

theorem wf_runOp {c : LRUCache} (h : WF c) (op : Op) (t : Nat) :
    WF (runOp c op t) := by
  cases op with
  | put k v => exact wf_put_sync h k v false t
  | del k => exact wf_remove_sync h k false
  | get k => exact wf_get_sync h k t

theorem wf_run {c : LRUCache} (h : WF c) (ops : List (Op × Nat)) :
    WF (run c ops) := by
  induction ops generalizing c with
  | nil => exact h
  | cons p rest ih => exact ih (wf_runOp h p.1 p.2)

end LRUCache

namespace LRUCache

/-! ### Misc helper lemmas for the claims -/

theorem walOk_logStep {c : LRUCache} (hw : WalOk c) (e : Str) :
    ∃ w', (if false = true then ((true : Bool), c.wal)
           else writeLogEntry c.wal e) = (true, w') := by
  rcases hw with hw | ⟨L, hw⟩
  · exact ⟨.off, by simp [hw, writeLogEntry]⟩
  · exact ⟨.on (L ++ [e]) true, by simp [hw, writeLogEntry]⟩

theorem capacity_put_sync (c : LRUCache) (k v : Str) (rec : Bool) (now : Nat) :
    (put_sync c k v rec now).2.capacity = c.capacity ∧
    (put_sync c k v rec now).2.ttl_seconds = c.ttl_seconds := by
  cases hc : c.index.contains k with
  | false =>
    rcases logStep_cases c rec (putEntry k v) with ⟨w', hq⟩ | ⟨hrec, hq⟩
    · by_cases hlen : c.index.length < c.capacity
      · rw [put_sync_fresh now hc hq hlen]
        exact ⟨rfl, rfl⟩
      · have hlen' : c.capacity ≤ c.index.length := Nat.le_of_not_lt hlen
        cases hlast : c.order.getLast? with
        | none =>
          rw [put_sync_evict_none now hc hq hlen' hlast]
          exact ⟨rfl, rfl⟩
        | some t =>
          rw [put_sync_evict now hc hq hlen' hlast]
          exact ⟨rfl, rfl⟩
    · subst hrec
      rw [put_sync_fail_absent now hc hq]
      exact ⟨rfl, rfl⟩
  | true =>
    cases hf : findNode c k with
    | none =>
      have hm : k ∈ c.index := contains_iff_mem.mp hc
      rcases logStep_cases c rec (putEntry k v) with ⟨w', hq⟩ | ⟨hrec, hq⟩
      · simp [put_sync, hm, hf, hq]
        repeat' split
        all_goals simp
      · subst hrec
        simp [put_sync, hm, hf, hq]
    | some n =>
      cases he : isExpired c n now with
      | false =>
        rcases logStep_cases c rec (putEntry k v) with ⟨w', hq⟩ | ⟨hrec, hq⟩
        · rw [put_sync_live now hc hf he hq]
          exact ⟨rfl, rfl⟩
        · subst hrec
          rw [put_sync_fail_live now hc hf he hq]
          exact ⟨rfl, rfl⟩
      | true =>
        have hm : k ∈ c.index := contains_iff_mem.mp hc
        rcases logStep_cases c rec (putEntry k v) with ⟨w', hq⟩ | ⟨hrec, hq⟩
        · simp [put_sync, hm, hf, he, hq, removeInternal, insertKey]
          repeat' split
          all_goals exact ⟨rfl, rfl⟩
        · subst hrec
          rw [put_sync_fail_reap now hc hf he hq]
          exact ⟨rfl, rfl⟩

theorem capacity_remove_sync (c : LRUCache) (k : Str) (rec : Bool) :
    (remove_sync c k rec).2.capacity = c.capacity ∧
    (remove_sync c k rec).2.ttl_seconds = c.ttl_seconds := by
  cases hc : c.index.contains k with
  | false =>
    rw [remove_sync_absent rec hc]
    exact ⟨rfl, rfl⟩
  | true =>
    have hm : k ∈ c.index := contains_iff_mem.mp hc
    cases hrec : rec
    · cases hb : (writeLogEntry c.wal (delEntry k)).1 <;>
        simp [remove_sync, hm, hb, removeInternal]
    · simp [remove_sync, hm, removeInternal]

theorem capacity_get_sync (c : LRUCache) (k : Str) (now : Nat) :
    (get_sync c k now).2.capacity = c.capacity ∧
    (get_sync c k now).2.ttl_seconds = c.ttl_seconds := by
  cases hc : c.index.contains k with
  | false =>
    rw [get_sync_absent now hc]
    exact ⟨rfl, rfl⟩
  | true =>
    have hm : k ∈ c.index := contains_iff_mem.mp hc
    cases hf : findNode c k with
    | none => simp [get_sync, hm, hf]
    | some n =>
      cases he : isExpired c n now <;>
        simp [get_sync, hm, hf, he, removeInternal]

theorem capacity_run (c : LRUCache) (ops : List (Op × Nat)) :
    (run c ops).capacity = c.capacity ∧
    (run c ops).ttl_seconds = c.ttl_seconds := by
  induction ops generalizing c with
  | nil => exact ⟨rfl, rfl⟩
  | cons p rest ih =>
    have h1 := ih (runOp c p.1 p.2)
    have h2 : (runOp c p.1 p.2).capacity = c.capacity ∧
        (runOp c p.1 p.2).ttl_seconds = c.ttl_seconds := by
      cases p.1 with
      | put k v => exact capacity_put_sync c k v false p.2
      | del k => exact capacity_remove_sync c k false
      | get k => exact capacity_get_sync c k p.2
    exact ⟨h1.1.trans h2.1, h1.2.trans h2.2⟩

theorem replayLines_append (c : LRUCache) (a b : List Str) (now : Nat) :
    replayLines c (a ++ b) now = replayLines (replayLines c a now) b now := by
  simp [replayLines]

end LRUCache

namespace LRUCache

/-! ## Claims -/

/-- C5 (confirmed).  For every entry and every clock reading `now`: if the
configured TTL is ≤ 0 the entry is never expired; otherwise the entry is
expired iff `now − last-touched` is strictly greater than TTL seconds, and
equality to TTL counts as not expired. -/
theorem claim_c5_ttl_expiry (c : LRUCache) (n : Node) (now : Nat) :
    (c.ttl_seconds ≤ 0 → isExpired c n now = false) ∧
    (0 < c.ttl_seconds →
      (isExpired c n now = true ↔
        c.ttl_seconds < (now : Int) - (n.timestamp : Int))) ∧
    ((now : Int) - (n.timestamp : Int) = c.ttl_seconds →
      isExpired c n now = false) := by
  refine ⟨fun h => by simp [isExpired, h], fun h => ?_, fun h => ?_⟩
  · rw [isExpired, if_neg (by omega)]
    simp
  · rw [isExpired]
    split
    · rfl
    · simp only [decide_eq_false_iff_not]
      omega

/-- C5 witness: TTL 5, last touch at 10; at 15 (= TTL boundary) not
expired, at 16 expired, and with TTL −1 never expired. -/
theorem claim_c5_ttl_expiry_witness :
    isExpired ⟨2, 5, [], [], .off⟩ ⟨"k".data, "v".data, 10⟩ 16 = true ∧
    isExpired ⟨2, 5, [], [], .off⟩ ⟨"k".data, "v".data, 10⟩ 15 = false ∧
    isExpired ⟨2, -1, [], [], .off⟩ ⟨"k".data, "v".data, 10⟩ 99 = false :=
  ⟨((claim_c5_ttl_expiry ⟨2, 5, [], [], .off⟩ ⟨"k".data, "v".data, 10⟩ 16).2.1
      (by decide)).mpr (by decide),
   (claim_c5_ttl_expiry ⟨2, 5, [], [], .off⟩ ⟨"k".data, "v".data, 10⟩ 15).2.2
      (by decide),
   (claim_c5_ttl_expiry ⟨2, -1, [], [], .off⟩ ⟨"k".data, "v".data, 10⟩ 99).1
      (by decide)⟩

/-- C10 (confirmed).  While no WAL stream is attached, `put` and `remove`
never return `log-write-failed`: the log-append step counts as a success
and the in-memory mutation is exactly the one recovery mode would apply. -/
theorem claim_c10_no_wal_no_failure (c : LRUCache) (k v : Str) (now : Nat)
    (hw : c.wal = .off) :
    (put_sync c k v false now).1 = true ∧
    (put_sync c k v false now).2 = (put_sync c k v true now).2 ∧
    (remove_sync c k false).1 = true ∧
    (remove_sync c k false).2 = (remove_sync c k true).2 := by
  obtain ⟨cap, ttl, idx, ord, wal⟩ := c
  cases hw
  have hput : (put_sync ⟨cap, ttl, idx, ord, .off⟩ k v false now).1 = true ∧
      (put_sync ⟨cap, ttl, idx, ord, .off⟩ k v false now).2 =
        (put_sync ⟨cap, ttl, idx, ord, .off⟩ k v true now).2 := by
    by_cases hm : k ∈ idx
    · rcases hf : findNode ⟨cap, ttl, idx, ord, .off⟩ k with _ | n
      · simp [put_sync, hm, hf, writeLogEntry]
      · cases he : isExpired ⟨cap, ttl, idx, ord, .off⟩ n now <;>
          simp [put_sync, hm, hf, he, writeLogEntry, removeInternal]
    · simp [put_sync, hm, writeLogEntry]
  have hrem : (remove_sync ⟨cap, ttl, idx, ord, .off⟩ k false).1 = true ∧
      (remove_sync ⟨cap, ttl, idx, ord, .off⟩ k false).2 =
        (remove_sync ⟨cap, ttl, idx, ord, .off⟩ k true).2 := by
    by_cases hm : k ∈ idx <;>
      simp [remove_sync, hm, writeLogEntry, removeInternal]
  exact ⟨hput.1, hput.2, hrem.1, hrem.2⟩

/-- C10 witness at a concrete cache and key. -/
theorem claim_c10_no_wal_no_failure_witness :
    (put_sync (mkCache 2 0) "k".data "v".data false 3).1 = true ∧
    (put_sync (mkCache 2 0) "k".data "v".data false 3).2 =
      (put_sync (mkCache 2 0) "k".data "v".data true 3).2 ∧
    (remove_sync (mkCache 2 0) "k".data false).1 = true ∧
    (remove_sync (mkCache 2 0) "k".data false).2 =
      (remove_sync (mkCache 2 0) "k".data true).2 :=
  claim_c10_no_wal_no_failure (mkCache 2 0) "k".data "v".data 3 rfl

end LRUCache

namespace LRUCache

/-- C3 counterexample.  On a fresh cache with a healthy WAL attached,
removing the absent key `"k"` returns success but appends *nothing* to the
log (the source returns before logging when the key is not found), contrary
to the claim that a DEL record is still appended. -/
theorem claim_c3_counterexample :
    (remove_sync (freshWithWal 1 0) "k".data false).1 = true ∧
    walLog (remove_sync (freshWithWal 1 0) "k".data false).2 = [] ∧
    walLog (remove_sync (freshWithWal 1 0) "k".data false).2 ≠
      [delEntry "k".data] := by
  decide

/-- C3 (corrected).  `remove(key)` on a cache in which the key is absent
returns success and leaves the cache (including the log) entirely
unchanged; only when the key is present (whether live or expired) is a DEL
record appended to an attached healthy log. -/
theorem claim_c3_remove_absent (c : LRUCache) (k : Str) :
    (c.index.contains k = false → remove_sync c k false = (true, c)) ∧
    (∀ L, c.index.contains k = true → c.wal = .on L true →
      walLog (remove_sync c k false).2 = L ++ [delEntry k] ∧
      (remove_sync c k false).1 = true) := by
  refine ⟨fun hc => remove_sync_absent false hc, fun L hc hw => ?_⟩
  rw [remove_sync_good hc hw]
  exact ⟨rfl, rfl⟩

/-- C3 witness: concrete cache holding key `"k"`; removing absent `"a"`
changes nothing, removing present `"k"` logs `DEL,k`. -/
theorem claim_c3_remove_absent_witness :
    remove_sync ⟨1, 0, ["k".data], [⟨"k".data, "v".data, 0⟩], .on [] true⟩
        "a".data false =
      (true, ⟨1, 0, ["k".data], [⟨"k".data, "v".data, 0⟩], .on [] true⟩) ∧
    walLog (remove_sync ⟨1, 0, ["k".data], [⟨"k".data, "v".data, 0⟩], .on [] true⟩
        "k".data false).2 = [] ++ [delEntry "k".data] :=
  ⟨(claim_c3_remove_absent _ "a".data).1 (by decide),
   ((claim_c3_remove_absent _ "k".data).2 [] (by decide) rfl).1⟩

/-- C8 (confirmed).  Recovery always reports success on a readable file; a
missing log file is a clean start (success, cache untouched, hence empty
when starting from a fresh cache); a malformed line (empty, wrong tag or
wrong arity) is skipped, and removing it from the file does not change the
recovered state — recovery continues with the remaining records. -/
theorem claim_c8_recovery_skips_malformed (c : LRUCache) (now : Nat) :
    (loadFromWAL none c now = (true, c)) ∧
    (∀ cap ttl, (loadFromWAL none (mkCache cap ttl) now).2.order = []) ∧
    (∀ content, (loadFromWAL (some content) c now).1 = true) ∧
    (∀ l, Malformed l → replayLine c l now = c) ∧
    (∀ pre l suf, Malformed l →
      replayLines c (pre ++ l :: suf) now = replayLines c (pre ++ suf) now) := by
  have hskip : ∀ (c' : LRUCache) l, Malformed l → replayLine c' l now = c' := by
    intro c' l hm
    by_cases hl : l = []
    · simp [replayLine, hl]
    · unfold Malformed at hm
      rcases hs : splitString ',' l with _ | ⟨op, _ | ⟨a, _ | ⟨b, _ | rest⟩⟩⟩ <;>
        rw [hs] at hm <;> simp [replayLine, hl, hs, hm]
  refine ⟨rfl, fun cap ttl => rfl, fun content => rfl, hskip c, ?_⟩
  intro pre l suf hm
  rw [replayLines_append, replayLines_append]
  show replayLines (replayLine (replayLines c pre now) l now) suf now = _
  rw [hskip _ l hm]

/-- C8 witness: the arity-2 line `PUT,k` (a PUT of the empty value) is
malformed and skipped by recovery. -/
theorem claim_c8_recovery_skips_malformed_witness :
    replayLine (mkCache 1 0) "PUT,k".data 0 = mkCache 1 0 ∧
    replayLines (mkCache 1 0)
        ["PUT,a,1".data, "FOO,x".data, "DEL,a".data] 0 =
      replayLines (mkCache 1 0) ["PUT,a,1".data, "DEL,a".data] 0 :=
  ⟨(claim_c8_recovery_skips_malformed (mkCache 1 0) 0).2.2.2.1 "PUT,k".data
      (by decide),
   (claim_c8_recovery_skips_malformed (mkCache 1 0) 0).2.2.2.2
      ["PUT,a,1".data] "FOO,x".data ["DEL,a".data] (by decide)⟩

end LRUCache

namespace LRUCache

/-- C6 (confirmed).  `get` on an absent key is a miss and leaves the cache
unchanged; on a present expired key it reaps the entry and reports a miss;
on a present live key it returns the stored value, moves the entry to MRU
and resets its last-touched instant to `now`; a value is returned iff the
key is present and live (`get` has no error outcome: its result type is a
miss-or-value option). -/
theorem claim_c6_get_semantics (c : LRUCache) (k : Str) (now : Nat) (h : WF c) :
    (c.index.contains k = false → get_sync c k now = (none, c)) ∧
    (∀ n, findNode c k = some n → isExpired c n now = true →
      get_sync c k now = (none, removeInternal c n.key)) ∧
    (∀ n, findNode c k = some n → isExpired c n now = false →
      get_sync c k now = (some n.value,
        { c with order := { n with timestamp := now } :: eraseKey c.order n.key })) ∧
    ((∃ n, findNode c k = some n ∧ isExpired c n now = false) ↔
      ∃ val, (get_sync c k now).1 = some val) := by
  have hcontains : ∀ n, findNode c k = some n → c.index.contains k = true :=
    fun n hf => (h.contains_iff k).mpr (mem_keysOf_of_findNode hf)
  refine ⟨fun hc => get_sync_absent now hc,
          fun n hf he => get_sync_expired now (hcontains n hf) hf he,
          fun n hf he => get_sync_live now (hcontains n hf) hf he, ?_, ?_⟩
  · rintro ⟨n, hf, he⟩
    rw [get_sync_live now (hcontains n hf) hf he]
    exact ⟨n.value, rfl⟩
  · rintro ⟨val, hval⟩
    cases hc : c.index.contains k with
    | false =>
      rw [get_sync_absent now hc] at hval
      cases hval
    | true =>
      obtain ⟨n, hf⟩ := findNode_isSome ((h.contains_iff k).mp hc)
      cases he : isExpired c n now with
      | true =>
        rw [get_sync_expired now hc hf he] at hval
        cases hval
      | false => exact ⟨n, hf, he⟩

/-- C6 witness: a concrete two-entry cache with TTL 2 at `now = 5`: the
key `"a"` (touched at 4) is live and is returned and moved to MRU; the key
`"b"` (touched at 1) is expired and reaped; the key `"z"` is absent. -/
theorem claim_c6_get_semantics_witness :
    get_sync ⟨3, 2, ["a".data, "b".data],
        [⟨"b".data, "2".data, 1⟩, ⟨"a".data, "1".data, 4⟩], .off⟩ "z".data 5 =
      (none, ⟨3, 2, ["a".data, "b".data],
        [⟨"b".data, "2".data, 1⟩, ⟨"a".data, "1".data, 4⟩], .off⟩) ∧
    get_sync ⟨3, 2, ["a".data, "b".data],
        [⟨"b".data, "2".data, 1⟩, ⟨"a".data, "1".data, 4⟩], .off⟩ "b".data 5 =
      (none, removeInternal ⟨3, 2, ["a".data, "b".data],
        [⟨"b".data, "2".data, 1⟩, ⟨"a".data, "1".data, 4⟩], .off⟩ "b".data) ∧
    (get_sync ⟨3, 2, ["a".data, "b".data],
        [⟨"b".data, "2".data, 1⟩, ⟨"a".data, "1".data, 4⟩], .off⟩ "a".data 5).1 =
      some "1".data :=
  ⟨(claim_c6_get_semantics _ "z".data 5 ⟨by decide, by decide, by decide, by decide⟩).1
      (by decide),
   (claim_c6_get_semantics _ "b".data 5 ⟨by decide, by decide, by decide, by decide⟩).2.1
      ⟨"b".data, "2".data, 1⟩ (by decide) (by decide),
   by
    rw [(claim_c6_get_semantics _ "a".data 5
          ⟨by decide, by decide, by decide, by decide⟩).2.2.1
        ⟨"a".data, "1".data, 4⟩ (by decide) (by decide)]⟩

/-- C9 (confirmed).  A put whose key is present with a live entry (with
the WAL detached or healthy) succeeds, updates that entry's value and
timestamp and moves it to MRU; the map is untouched, the capacity is
unchanged, and every other entry survives with the relative order
preserved (the new recency list is the old one with just that entry
removed, consed at the front). -/
theorem claim_c9_put_live_update (c : LRUCache) (k v : Str) (n : Node)
    (now : Nat) (h : WF c) (hf : findNode c k = some n)
    (he : isExpired c n now = false) (hw : WalOk c) :
    (put_sync c k v false now).1 = true ∧
    (put_sync c k v false now).2.index = c.index ∧
    (put_sync c k v false now).2.order =
      { n with value := v, timestamp := now } :: eraseKey c.order k ∧
    (∀ m ∈ c.order, m.key ≠ k → m ∈ (put_sync c k v false now).2.order) ∧
    (put_sync c k v false now).2.capacity = c.capacity := by
  have hkey : n.key = k := (findNode_some hf).1
  have hc : c.index.contains k = true :=
    (h.contains_iff k).mpr (mem_keysOf_of_findNode hf)
  obtain ⟨w', hq⟩ := walOk_logStep hw (putEntry k v)
  rw [put_sync_live now hc hf he hq]
  refine ⟨rfl, rfl, by rw [hkey], ?_, rfl⟩
  intro m hm hne
  exact List.mem_cons_of_mem _
    ((List.mem_eraseP_of_neg (by simp [hkey, hne])).mpr hm)

/-- C9 witness: a full (capacity 2) cache; putting the live key `"b"`
replaces its value, moves it to MRU and evicts nothing. -/
theorem claim_c9_put_live_update_witness :
    (put_sync ⟨2, 0, ["a".data, "b".data],
        [⟨"a".data, "1".data, 0⟩, ⟨"b".data, "2".data, 0⟩], .on [] true⟩
        "b".data "9".data false 7).2.order =
      ⟨"b".data, "9".data, 7⟩ ::
        eraseKey [⟨"a".data, "1".data, 0⟩, ⟨"b".data, "2".data, 0⟩] "b".data ∧
    (put_sync ⟨2, 0, ["a".data, "b".data],
        [⟨"a".data, "1".data, 0⟩, ⟨"b".data, "2".data, 0⟩], .on [] true⟩
        "b".data "9".data false 7).2.index = ["a".data, "b".data] :=
  ⟨(claim_c9_put_live_update _ "b".data "9".data ⟨"b".data, "2".data, 0⟩ 7
      ⟨by decide, by decide, by decide, by decide⟩ (by decide) (by decide)
      (.inr ⟨[], rfl⟩)).2.2.1,
   (claim_c9_put_live_update _ "b".data "9".data ⟨"b".data, "2".data, 0⟩ 7
      ⟨by decide, by decide, by decide, by decide⟩ (by decide) (by decide)
      (.inr ⟨[], rfl⟩)).2.1⟩

end LRUCache

namespace LRUCache

/-- C2 counterexample.  A capacity-1, TTL-1 cache holds the (expired at
`now = 5`) entry `k ↦ v`; the WAL stream is attached but bad.  `put(k, w)`
returns failure, yet the store is *not* left unchanged: the expired entry
for `k` was reaped before the failed append (the source removes it before
writing the log record), so the recency list is emptied. -/
theorem claim_c2_counterexample :
    (put_sync ⟨1, 1, ["k".data], [⟨"k".data, "v".data, 0⟩], .on [] false⟩
        "k".data "w".data false 5).1 = false ∧
    (put_sync ⟨1, 1, ["k".data], [⟨"k".data, "v".data, 0⟩], .on [] false⟩
        "k".data "w".data false 5).2.order = [] ∧
    (⟨1, 1, ["k".data], [⟨"k".data, "v".data, 0⟩],
        .on [] false⟩ : LRUCache).order ≠ [] := by
  decide

/-- C2 (corrected).  With an attached bad WAL stream, put and remove
return failure (`log-write-failed`) and: remove (of a present key) leaves
the cache entirely unchanged; put of an absent key or of a live present
key leaves the cache entirely unchanged; but put of a key whose present
entry is *expired* reaps that expired entry before the failed append, and
that removal persists (nothing else changes). -/
theorem claim_c2_failed_append (c : LRUCache) (k v : Str) (L : List Str)
    (now : Nat) (hw : c.wal = .on L false) :
    (c.index.contains k = true → remove_sync c k false = (false, c)) ∧
    (c.index.contains k = false → put_sync c k v false now = (false, c)) ∧
    (∀ n, c.index.contains k = true → findNode c k = some n →
      isExpired c n now = false → put_sync c k v false now = (false, c)) ∧
    (∀ n, c.index.contains k = true → findNode c k = some n →
      isExpired c n now = true →
      put_sync c k v false now = (false, removeInternal c n.key)) := by
  have hq : ∀ e, writeLogEntry c.wal e = (false, c.wal) := by
    intro e
    rw [hw]
    rfl
  refine ⟨fun hc => remove_sync_bad hc hw, fun hc => ?_,
          fun n hc hf he => ?_, fun n hc hf he => ?_⟩
  · rw [put_sync_fail_absent now hc (hq _)]
  · rw [put_sync_fail_live now hc hf he (hq _)]
  · rw [put_sync_fail_reap now hc hf he (hq _)]
    rfl

/-- C2 witness: concrete bad-WAL caches exercising the remove, absent-put
and live-put clauses of the corrected claim. -/
theorem claim_c2_failed_append_witness :
    remove_sync ⟨2, 0, ["k".data], [⟨"k".data, "v".data, 0⟩], .on [] false⟩
        "k".data false =
      (false, ⟨2, 0, ["k".data], [⟨"k".data, "v".data, 0⟩], .on [] false⟩) ∧
    put_sync ⟨2, 0, ["k".data], [⟨"k".data, "v".data, 0⟩], .on [] false⟩
        "z".data "w".data false 3 =
      (false, ⟨2, 0, ["k".data], [⟨"k".data, "v".data, 0⟩], .on [] false⟩) ∧
    put_sync ⟨2, 0, ["k".data], [⟨"k".data, "v".data, 0⟩], .on [] false⟩
        "k".data "w".data false 3 =
      (false, ⟨2, 0, ["k".data], [⟨"k".data, "v".data, 0⟩], .on [] false⟩) :=
  ⟨(claim_c2_failed_append _ "k".data "w".data [] 3 rfl).1 (by decide),
   (claim_c2_failed_append _ "z".data "w".data [] 3 rfl).2.1 (by decide),
   (claim_c2_failed_append _ "k".data "w".data [] 3 rfl).2.2.1
      ⟨"k".data, "v".data, 0⟩ (by decide) (by decide) (by decide)⟩

/-- C4 counterexample.  Reachable state: capacity 2, TTL 1; `put(a,1)` and
`put(b,2)` at `t = 0` fill the cache (recency `b, a`, LRU entry `a`).  At
`t = 5` the present entry for `b` is expired, so by the claim
`put(b,3)` — an insertion whose present entry is expired, at capacity —
must "remove exactly the least-recently-used entry" (`a`).  Instead the
source reaps the expired `b` itself and evicts nothing: `a` survives. -/
theorem claim_c4_counterexample :
    run (mkCache 2 1) [(.put "a".data "1".data, 0), (.put "b".data "2".data, 0)] =
      ⟨2, 1, ["b".data, "a".data],
       [⟨"b".data, "2".data, 0⟩, ⟨"a".data, "1".data, 0⟩], .off⟩ ∧
    (⟨2, 1, ["b".data, "a".data],
       [⟨"b".data, "2".data, 0⟩, ⟨"a".data, "1".data, 0⟩], .off⟩ :
        LRUCache).order.length =
      (⟨2, 1, ["b".data, "a".data],
       [⟨"b".data, "2".data, 0⟩, ⟨"a".data, "1".data, 0⟩], .off⟩ :
        LRUCache).capacity ∧
    isExpired ⟨2, 1, ["b".data, "a".data],
       [⟨"b".data, "2".data, 0⟩, ⟨"a".data, "1".data, 0⟩], .off⟩
      ⟨"b".data, "2".data, 0⟩ 5 = true ∧
    findNode ⟨2, 1, ["b".data, "a".data],
       [⟨"b".data, "2".data, 0⟩, ⟨"a".data, "1".data, 0⟩], .off⟩ "b".data =
      some ⟨"b".data, "2".data, 0⟩ ∧
    (⟨2, 1, ["b".data, "a".data],
       [⟨"b".data, "2".data, 0⟩, ⟨"a".data, "1".data, 0⟩], .off⟩ :
        LRUCache).order.getLast? = some ⟨"a".data, "1".data, 0⟩ ∧
    (put_sync ⟨2, 1, ["b".data, "a".data],
       [⟨"b".data, "2".data, 0⟩, ⟨"a".data, "1".data, 0⟩], .off⟩
       "b".data "3".data false 5).2.order =
      [⟨"b".data, "3".data, 5⟩, ⟨"a".data, "1".data, 0⟩] := by
  decide

/-- C4 (corrected).  At capacity (with the WAL detached or healthy):
inserting a key *not currently present* evicts exactly the LRU entry
regardless of its liveness, and every non-LRU entry — expired or not —
survives; but inserting a key whose *present entry is expired* reaps that
expired entry itself and evicts nothing: every entry under a different key
survives. -/
theorem claim_c4_eviction (c : LRUCache) (k v : Str) (now : Nat) (h : WF c)
    (hfull : c.order.length = c.capacity) (hw : WalOk c) :
    (∀ t, c.index.contains k = false → c.order.getLast? = some t →
      (put_sync c k v false now).2.order = ⟨k, v, now⟩ :: c.order.dropLast ∧
      (put_sync c k v false now).2.index = k :: c.index.erase t.key ∧
      ∀ m ∈ c.order.dropLast, m ∈ (put_sync c k v false now).2.order) ∧
    (∀ n, findNode c k = some n → isExpired c n now = true →
      (put_sync c k v false now).2.order = ⟨k, v, now⟩ :: eraseKey c.order k ∧
      ∀ m ∈ c.order, m.key ≠ k → m ∈ (put_sync c k v false now).2.order) := by
  obtain ⟨w', hq⟩ := walOk_logStep hw (putEntry k v)
  constructor
  · intro t hc hlast
    have hlen : c.capacity ≤ c.index.length := by
      rw [h.len_eq, hfull]
    rw [put_sync_evict now hc hq hlen hlast]
    exact ⟨rfl, rfl, fun m hm => List.mem_cons_of_mem _ hm⟩
  · intro n hf he
    have hkey : n.key = k := (findNode_some hf).1
    have hc : c.index.contains k = true :=
      (h.contains_iff k).mpr (mem_keysOf_of_findNode hf)
    rw [put_sync_reap now hc hf he hq h.index_nodup (h.len_eq ▸ h.size_le)]
    refine ⟨by rw [hkey], ?_⟩
    intro m hm hne
    exact List.mem_cons_of_mem _
      ((List.mem_eraseP_of_neg (by simp [hkey, hne])).mpr hm)

/-- C4 witness: a full capacity-2 cache with an expired non-LRU entry
`b`; inserting the fresh key `c` evicts exactly the LRU entry `a` and the
expired `b` survives; and on the same cache inserting over the expired
present key `b` reaps `b` and keeps `a`. -/
theorem claim_c4_eviction_witness :
    (put_sync ⟨2, 1, ["b".data, "a".data],
        [⟨"b".data, "2".data, 3⟩, ⟨"a".data, "1".data, 4⟩], .off⟩
        "c".data "9".data false 5).2.order =
      ⟨"c".data, "9".data, 5⟩ ::
        [⟨"b".data, "2".data, 3⟩, ⟨"a".data, "1".data, 4⟩].dropLast ∧
    (put_sync ⟨2, 1, ["b".data, "a".data],
        [⟨"b".data, "2".data, 3⟩, ⟨"a".data, "1".data, 4⟩], .off⟩
        "b".data "9".data false 5).2.order =
      ⟨"b".data, "9".data, 5⟩ ::
        eraseKey [⟨"b".data, "2".data, 3⟩, ⟨"a".data, "1".data, 4⟩] "b".data :=
  ⟨((claim_c4_eviction _ "c".data "9".data 5
      ⟨by decide, by decide, by decide, by decide⟩ (by decide) (.inl rfl)).1
      ⟨"a".data, "1".data, 4⟩ (by decide) (by decide)).1,
   ((claim_c4_eviction _ "b".data "9".data 5
      ⟨by decide, by decide, by decide, by decide⟩ (by decide) (.inl rfl)).2
      ⟨"b".data, "2".data, 3⟩ (by decide) (by decide)).1⟩

/-- C7 (confirmed).  Starting from an empty cache of any configured
capacity (0 coerced to 1) with any WAL stream attached, after any sequence
of get/put/remove operations the number of keys in the index is at most
the capacity, and a key is in the index iff it is in the recency order. -/
theorem claim_c7_bounded_index (cap : Nat) (ttl : Int) (w : Wal)
    (ops : List (Op × Nat)) :
    (run (setWalStream (mkCache cap ttl) w) ops).index.length ≤
      (run (setWalStream (mkCache cap ttl) w) ops).capacity ∧
    (run (setWalStream (mkCache cap ttl) w) ops).capacity =
      (if cap = 0 then 1 else cap) ∧
    (∀ k, k ∈ (run (setWalStream (mkCache cap ttl) w) ops).index ↔
      k ∈ keysOf (run (setWalStream (mkCache cap ttl) w) ops)) := by
  have h : WF (run (setWalStream (mkCache cap ttl) w) ops) :=
    wf_run ((WF.mk_cache cap ttl).wal_update w) ops
  refine ⟨?_, ?_, fun k => h.perm.mem_iff⟩
  · rw [h.len_eq]
    exact h.size_le
  · exact (capacity_run _ ops).1

end LRUCache

namespace LRUCache

/-! ### Parsing the log records back (`splitString` lemmas) -/

theorem splitString_append_cons (d : Char) (a b : Str) (ha : d ∉ a) :
    splitString d (a ++ d :: b) = a :: splitString d b := by
  induction a with
  | nil => simp [splitString]
  | cons x xs ih =>
    have hxd : ¬ x = d := fun e => ha (e ▸ List.mem_cons_self x xs)
    have ih' := ih (fun hm => ha (List.mem_cons_of_mem _ hm))
    simp [splitString, hxd, ih']

theorem splitString_no_delim (d : Char) (a : Str) (ha : d ∉ a) (hne : a ≠ []) :
    splitString d a = [a] := by
  induction a with
  | nil => cases hne rfl
  | cons x xs ih =>
    have hxd : ¬ x = d := fun e => ha (e ▸ List.mem_cons_self x xs)
    by_cases hxs : xs = []
    · subst hxs
      simp [splitString, hxd]
    · have ih' := ih (fun hm => ha (List.mem_cons_of_mem _ hm)) hxs
      simp [splitString, hxd, ih']

theorem splitString_fileOf (log : List Str) (h : ∀ e ∈ log, '\n' ∉ e) :
    splitString '\n' (fileOf log) = log := by
  induction log with
  | nil => rfl
  | cons e rest ih =>
    have h1 : fileOf (e :: rest) = e ++ '\n' :: fileOf rest := by
      simp [fileOf]
    rw [h1, splitString_append_cons _ _ _ (h e (List.mem_cons_self e rest)),
        ih (fun x hx => h x (List.mem_cons_of_mem _ hx))]

theorem splitString_putEntry {k v : Str} (hk : ',' ∉ k) (hv : ',' ∉ v)
    (hvne : v ≠ []) :
    splitString ',' (putEntry k v) = ["PUT".data, k, v] := by
  have h1 : putEntry k v = "PUT".data ++ ',' :: (k ++ ',' :: v) := by
    simp only [putEntry, List.append_assoc]
    rfl
  rw [h1, splitString_append_cons _ _ _ (by decide),
      splitString_append_cons _ _ _ hk, splitString_no_delim _ _ hv hvne]

theorem splitString_delEntry {k : Str} (hk : ',' ∉ k) (hkne : k ≠ []) :
    splitString ',' (delEntry k) = ["DEL".data, k] := by
  have h1 : delEntry k = "DEL".data ++ ',' :: k := by
    simp only [delEntry, List.append_assoc]
    rfl
  rw [h1, splitString_append_cons _ _ _ (by decide),
      splitString_no_delim _ _ hk hkne]

theorem replayLine_putEntry (c : LRUCache) {k v : Str} (now : Nat)
    (hk : ',' ∉ k) (hv : ',' ∉ v) (hvne : v ≠ []) :
    replayLine c (putEntry k v) now = (put_sync c k v true now).2 := by
  have hne : putEntry k v ≠ [] := by
    simp [putEntry]
  simp [replayLine, hne, splitString_putEntry hk hv hvne]

theorem replayLine_delEntry (c : LRUCache) {k : Str} (now : Nat)
    (hk : ',' ∉ k) (hkne : k ≠ []) :
    replayLine c (delEntry k) now = (remove_sync c k true).2 := by
  have hne : delEntry k ≠ [] := by
    simp [delEntry]
  simp [replayLine, hne, splitString_delEntry hk hkne]

/-! ### Projection lemmas -/

theorem proj_eraseKey (l : List Node) (k : Str) :
    (eraseKey l k).map (fun n => (n.key, n.value)) =
      (l.map (fun n => (n.key, n.value))).eraseP (fun p => p.1 == k) := by
  induction l with
  | nil => rfl
  | cons n t ih =>
    by_cases h : n.key = k
    · simp [eraseKey, List.eraseP_cons, h]
    · simp only [eraseKey, List.eraseP_cons, List.map_cons] at ih ⊢
      simp [h, beq_false_of_ne h, ih]

theorem keysOf_eq_proj_fst (c : LRUCache) : keysOf c = (proj c).map Prod.fst := by
  simp [keysOf, proj]

theorem isExpired_fresh {r : LRUCache} {n : Node} {nowR : Nat}
    (h : n.timestamp = nowR) : isExpired r n nowR = false := by
  rw [isExpired]
  split
  · rfl
  · next httl =>
    simp only [decide_eq_false_iff_not]
    subst h
    omega

end LRUCache

namespace LRUCache

/-! ### WAL evolution and replay-side auxiliary invariants -/

theorem put_sync_good_wal {c : LRUCache} (hwf : WF c) {k v : Str} {L : List Str}
    (hw : c.wal = .on L true) (t : Nat) :
    (put_sync c k v false t).1 = true ∧
    (put_sync c k v false t).2.wal = .on (L ++ [putEntry k v]) true := by
  have hq : (if false = true then ((true : Bool), c.wal)
      else writeLogEntry c.wal (putEntry k v)) =
      (true, .on (L ++ [putEntry k v]) true) := by
    simp [hw, writeLogEntry]
  cases hc : c.index.contains k with
  | false =>
    by_cases hlt : c.index.length < c.capacity
    · rw [put_sync_fresh t hc hq hlt]
      exact ⟨rfl, rfl⟩
    · have hlen : c.capacity ≤ c.index.length := Nat.le_of_not_lt hlt
      cases hlast : c.order.getLast? with
      | none =>
        rw [put_sync_evict_none t hc hq hlen hlast]
        exact ⟨rfl, rfl⟩
      | some tn =>
        rw [put_sync_evict t hc hq hlen hlast]
        exact ⟨rfl, rfl⟩
  | true =>
    obtain ⟨n, hf⟩ := findNode_isSome ((hwf.contains_iff k).mp hc)
    cases he : isExpired c n t with
    | false =>
      rw [put_sync_live t hc hf he hq]
      exact ⟨rfl, rfl⟩
    | true =>
      rw [put_sync_reap t hc hf he hq hwf.index_nodup (hwf.len_eq ▸ hwf.size_le)]
      exact ⟨rfl, rfl⟩

theorem timestamps_put_recovery {r : LRUCache} (hwf : WF r) {k v : Str}
    {nowR : Nat} (h : ∀ n ∈ r.order, n.timestamp = nowR) :
    ∀ n ∈ (put_sync r k v true nowR).2.order, n.timestamp = nowR := by
  have hq : (if true = true then ((true : Bool), r.wal)
      else writeLogEntry r.wal (putEntry k v)) = (true, r.wal) := by simp
  cases hc : r.index.contains k with
  | false =>
    by_cases hlt : r.index.length < r.capacity
    · rw [put_sync_fresh nowR hc hq hlt]
      intro n hn
      rcases List.mem_cons.mp hn with hn | hn
      · subst hn
        rfl
      · exact h n hn
    · have hlen : r.capacity ≤ r.index.length := Nat.le_of_not_lt hlt
      cases hlast : r.order.getLast? with
      | none =>
        rw [put_sync_evict_none nowR hc hq hlen hlast]
        intro n hn
        rcases List.mem_cons.mp hn with hn | hn
        · subst hn
          rfl
        · exact h n hn
      | some tn =>
        rw [put_sync_evict nowR hc hq hlen hlast]
        intro n hn
        rcases List.mem_cons.mp hn with hn | hn
        · subst hn
          rfl
        · exact h n ((List.dropLast_sublist _).subset hn)
  | true =>
    obtain ⟨n, hf⟩ := findNode_isSome ((hwf.contains_iff k).mp hc)
    have he : isExpired r n nowR = false :=
      isExpired_fresh (h n (findNode_some hf).2)
    rw [put_sync_live nowR hc hf he hq]
    intro m hm
    rcases List.mem_cons.mp hm with hm | hm
    · subst hm
      rfl
    · exact h m ((eraseKey_sublist _ _).subset hm)

theorem timestamps_remove_recovery {r : LRUCache} {k : Str} {nowR : Nat}
    (h : ∀ n ∈ r.order, n.timestamp = nowR) :
    ∀ n ∈ (remove_sync r k true).2.order, n.timestamp = nowR := by
  cases hc : r.index.contains k with
  | false =>
    rw [remove_sync_absent true hc]
    exact h
  | true =>
    rw [remove_sync_recovery hc]
    exact fun n hn => h n ((eraseKey_sublist _ _).subset hn)

theorem newline_not_mem_putEntry {k v : Str} (hk : '\n' ∉ k) (hv : '\n' ∉ v) :
    '\n' ∉ putEntry k v := by
  intro hm
  simp only [putEntry, List.mem_append] at hm
  rcases hm with ((hm | hm) | hm) | hm
  · exact absurd hm (by decide)
  · exact hk hm
  · exact absurd hm (by decide)
  · exact hv hm

theorem newline_not_mem_delEntry {k : Str} (hk : '\n' ∉ k) :
    '\n' ∉ delEntry k := by
  intro hm
  simp only [delEntry, List.mem_append] at hm
  rcases hm with hm | hm
  · exact absurd hm (by decide)
  · exact hk hm

end LRUCache

namespace LRUCache

theorem WF.contains_eq_false {c : LRUCache} (h : WF c) {k : Str}
    (hk : k ∉ keysOf c) : c.index.contains k = false :=
  contains_false_iff.mpr (fun hm => hk (h.perm.mem_iff.mp hm))

theorem order_length_eq_of_proj {c r : LRUCache} (hpr : proj r = proj c) :
    r.order.length = c.order.length := by
  have h1 := congrArg List.length hpr
  simpa [proj] using h1

/-- One put on the original cache and the corresponding replayed put
produce the same bindings in the same recency order. -/
theorem proj_put_corr {nowR : Nat} {c r : LRUCache} (hwc : WF c) (hwr : WF r)
    (hpr : proj r = proj c) (hcap : r.capacity = c.capacity)
    (hts : ∀ n ∈ r.order, n.timestamp = nowR) (hwalc : WalOk c)
    (k v : Str) (t : Nat) :
    proj (put_sync c k v false t).2 = proj (put_sync r k v true nowR).2 := by
  obtain ⟨w1, hq1⟩ := walOk_logStep hwalc (putEntry k v)
  have hq2 : (if true = true then ((true : Bool), r.wal)
      else writeLogEntry r.wal (putEntry k v)) = (true, r.wal) := by simp
  have hkeys : keysOf r = keysOf c := by
    rw [keysOf_eq_proj_fst, keysOf_eq_proj_fst, hpr]
  have hpr' : r.order.map (fun n => (n.key, n.value)) =
      c.order.map (fun n => (n.key, n.value)) := hpr
  by_cases hkc : k ∈ keysOf c
  · have hkr : k ∈ keysOf r := by rw [hkeys]; exact hkc
    have hcc : c.index.contains k = true := (hwc.contains_iff k).mpr hkc
    have hcr : r.index.contains k = true := (hwr.contains_iff k).mpr hkr
    obtain ⟨nc, hfc⟩ := findNode_isSome hkc
    obtain ⟨nr, hfr⟩ := findNode_isSome hkr
    have hknc : nc.key = k := (findNode_some hfc).1
    have hknr : nr.key = k := (findNode_some hfr).1
    have her : isExpired r nr nowR = false :=
      isExpired_fresh (hts nr (findNode_some hfr).2)
    rw [put_sync_live nowR hcr hfr her hq2]
    cases hec : isExpired c nc t with
    | false =>
      rw [put_sync_live t hcc hfc hec hq1]
      show ({ nc with value := v, timestamp := t } ::
          eraseKey c.order nc.key).map (fun n => (n.key, n.value)) =
        ({ nr with value := v, timestamp := nowR } ::
          eraseKey r.order nr.key).map (fun n => (n.key, n.value))
      rw [List.map_cons, List.map_cons, proj_eraseKey, proj_eraseKey, hpr']
      simp [hknc, hknr]
    | true =>
      rw [put_sync_reap t hcc hfc hec hq1 hwc.index_nodup
        (hwc.len_eq ▸ hwc.size_le)]
      show ((⟨k, v, t⟩ : Node) ::
          eraseKey c.order nc.key).map (fun n => (n.key, n.value)) =
        ({ nr with value := v, timestamp := nowR } ::
          eraseKey r.order nr.key).map (fun n => (n.key, n.value))
      rw [List.map_cons, List.map_cons, proj_eraseKey, proj_eraseKey, hpr']
      simp [hknc, hknr]
  · have hkr : k ∉ keysOf r := by rw [hkeys]; exact hkc
    have hcc : c.index.contains k = false := hwc.contains_eq_false hkc
    have hcr : r.index.contains k = false := hwr.contains_eq_false hkr
    have hleq : r.index.length = c.index.length := by
      rw [hwr.len_eq, hwc.len_eq, order_length_eq_of_proj hpr]
    by_cases hlt : c.index.length < c.capacity
    · have hltr : r.index.length < r.capacity := by
        rw [hleq, hcap]
        exact hlt
      rw [put_sync_fresh t hcc hq1 hlt, put_sync_fresh nowR hcr hq2 hltr]
      show ((⟨k, v, t⟩ : Node) :: c.order).map (fun n => (n.key, n.value)) =
        ((⟨k, v, nowR⟩ : Node) :: r.order).map (fun n => (n.key, n.value))
      rw [List.map_cons, List.map_cons, hpr']
    · have hlenc : c.capacity ≤ c.index.length := Nat.le_of_not_lt hlt
      have hlenr : r.capacity ≤ r.index.length := by
        rw [hleq, hcap]
        exact hlenc
      have hnec : c.order ≠ [] := by
        intro e
        have h0 : c.index.length = 0 := by rw [hwc.len_eq, e]; rfl
        rw [h0] at hlenc
        have := hwc.cap_pos
        omega
      have hner : r.order ≠ [] := by
        intro e
        have h0 : r.index.length = 0 := by rw [hwr.len_eq, e]; rfl
        rw [h0] at hlenr
        have := hwr.cap_pos
        omega
      cases hlastc : c.order.getLast? with
      | none => exact absurd (List.getLast?_eq_none_iff.mp hlastc) hnec
      | some tc =>
        cases hlastr : r.order.getLast? with
        | none => exact absurd (List.getLast?_eq_none_iff.mp hlastr) hner
        | some tr =>
          rw [put_sync_evict t hcc hq1 hlenc hlastc,
              put_sync_evict nowR hcr hq2 hlenr hlastr]
          show ((⟨k, v, t⟩ : Node) ::
              c.order.dropLast).map (fun n => (n.key, n.value)) =
            ((⟨k, v, nowR⟩ : Node) ::
              r.order.dropLast).map (fun n => (n.key, n.value))
          rw [List.map_cons, List.map_cons, List.map_dropLast,
              List.map_dropLast, hpr']

end LRUCache

namespace LRUCache

/-- One client mutation extends the log by zero or one record, and
replaying exactly those records on the replay side preserves the
correspondence. -/
theorem corr_runOp {nowR : Nat} {c r : LRUCache} (hco : Corr nowR c r)
    {op : Op} (hop : GoodOp op) (t : Nat) :
    ∃ new : List Str, (∀ e ∈ new, '\n' ∉ e) ∧
      walLog (runOp c op t) = walLog c ++ new ∧
      Corr nowR (runOp c op t) (replayLines r new nowR) := by
  obtain ⟨hwc, hwr, hpr, hcap, hts, L, hw, hLnl⟩ := hco
  have hpr' : r.order.map (fun n => (n.key, n.value)) =
      c.order.map (fun n => (n.key, n.value)) := hpr
  cases op with
  | get k => exact absurd hop (by simp [GoodOp])
  | put k v =>
    simp only [GoodOp, GoodStr] at hop
    obtain ⟨⟨hkc, hkn⟩, ⟨hvc, hvn⟩, hkne, hvne⟩ := hop
    have hgood := put_sync_good_wal hwc hw t (k := k) (v := v)
    refine ⟨[putEntry k v], ?_, ?_, ?_⟩
    · intro e he
      rcases List.mem_cons.mp he with he | he
      · subst he
        exact newline_not_mem_putEntry hkn hvn
      · cases he
    · show walLog (put_sync c k v false t).2 = walLog c ++ [putEntry k v]
      simp [walLog, hgood.2, hw]
    · have hrepl : replayLines r [putEntry k v] nowR =
          (put_sync r k v true nowR).2 := by
        simp [replayLines, replayLine_putEntry r nowR hkc hvc hvne]
      show Corr nowR (put_sync c k v false t).2 _
      rw [hrepl]
      refine ⟨wf_put_sync hwc k v false t, wf_put_sync hwr k v true nowR,
        (proj_put_corr hwc hwr hpr hcap hts (.inr ⟨L, hw⟩) k v t).symm, ?_,
        timestamps_put_recovery hwr hts, ?_⟩
      · rw [(capacity_put_sync r k v true nowR).1,
            (capacity_put_sync c k v false t).1]
        exact hcap
      · refine ⟨L ++ [putEntry k v], hgood.2, ?_⟩
        intro e he
        rcases List.mem_append.mp he with he | he
        · exact hLnl e he
        · rcases List.mem_cons.mp he with he | he
          · subst he
            exact newline_not_mem_putEntry hkn hvn
          · cases he
  | del k =>
    simp only [GoodOp, GoodStr] at hop
    obtain ⟨⟨hkc, hkn⟩, hkne⟩ := hop
    cases hcc : c.index.contains k with
    | false =>
      refine ⟨[], by simp, ?_, ?_⟩
      · show walLog (remove_sync c k false).2 = walLog c ++ []
        rw [remove_sync_absent false hcc, List.append_nil]
      · show Corr nowR (remove_sync c k false).2 (replayLines r [] nowR)
        rw [remove_sync_absent false hcc]
        exact ⟨hwc, hwr, hpr, hcap, hts, L, hw, hLnl⟩
    | true =>
      have hkmem : k ∈ keysOf c := (hwc.contains_iff k).mp hcc
      have hkr : k ∈ keysOf r := by
        rw [keysOf_eq_proj_fst, hpr, ← keysOf_eq_proj_fst]
        exact hkmem
      have hcr : r.index.contains k = true := (hwr.contains_iff k).mpr hkr
      have hgoodc := remove_sync_good hcc hw
      refine ⟨[delEntry k], ?_, ?_, ?_⟩
      · intro e he
        rcases List.mem_cons.mp he with he | he
        · subst he
          exact newline_not_mem_delEntry hkn
        · cases he
      · show walLog (remove_sync c k false).2 = walLog c ++ [delEntry k]
        rw [hgoodc]
        simp [walLog, removeInternal, hw]
      · have hrepl : replayLines r [delEntry k] nowR =
            (remove_sync r k true).2 := by
          simp [replayLines, replayLine_delEntry r nowR hkc hkne]
        show Corr nowR (remove_sync c k false).2 _
        rw [hrepl, hgoodc, remove_sync_recovery hcr]
        refine ⟨(hwc.wal_update _).remove_internal k, hwr.remove_internal k,
          ?_, hcap, ?_, ?_⟩
        · show (eraseKey r.order k).map (fun n => (n.key, n.value)) =
            (eraseKey c.order k).map (fun n => (n.key, n.value))
          rw [proj_eraseKey, proj_eraseKey, hpr']
        · intro n hn
          exact hts n ((eraseKey_sublist _ _).subset hn)
        · refine ⟨L ++ [delEntry k], rfl, ?_⟩
          intro e he
          rcases List.mem_append.mp he with he | he
          · exact hLnl e he
          · rcases List.mem_cons.mp he with he | he
            · subst he
              exact newline_not_mem_delEntry hkn
            · cases he

end LRUCache

namespace LRUCache

/-- Replaying the records written by a run of well-formed mutations
preserves the correspondence. -/
theorem corr_run {nowR : Nat} {c r : LRUCache} (hco : Corr nowR c r)
    {ops : List (Op × Nat)} (hops : ∀ p ∈ ops, GoodOp p.1) :
    ∃ new : List Str, (∀ e ∈ new, '\n' ∉ e) ∧
      walLog (run c ops) = walLog c ++ new ∧
      Corr nowR (run c ops) (replayLines r new nowR) := by
  induction ops generalizing c r with
  | nil =>
    refine ⟨[], by simp, by simp [run], ?_⟩
    simpa [run, replayLines] using hco
  | cons p rest ih =>
    obtain ⟨n1, hn1, hw1, hc1⟩ :=
      corr_runOp hco (hops p (List.mem_cons_self p rest)) p.2
    obtain ⟨n2, hn2, hw2, hc2⟩ :=
      ih hc1 (fun q hq => hops q (List.mem_cons_of_mem _ hq))
    refine ⟨n1 ++ n2, ?_, ?_, ?_⟩
    · intro e he
      rcases List.mem_append.mp he with he | he
      · exact hn1 e he
      · exact hn2 e he
    · show walLog (run (runOp c p.1 p.2) rest) = walLog c ++ (n1 ++ n2)
      rw [hw2, hw1, List.append_assoc]
    · show Corr nowR (run (runOp c p.1 p.2) rest) _
      rw [replayLines_append]
      exact hc2

/-- C1 counterexample.  A single successful `put("k", "")` (an empty
value, which the data model allows) against a fresh capacity-1 cache with
the WAL attached logs the record `PUT,k,`; `std::getline`-style splitting
of that line yields only two fields, so recovery skips it as malformed and
the replayed cache is empty instead of holding `k ↦ ""`. -/
theorem claim_c1_counterexample :
    proj (run (freshWithWal 1 0) [(.put "k".data [], 0)]) =
      [("k".data, [])] ∧
    walLog (run (freshWithWal 1 0) [(.put "k".data [], 0)]) =
      ["PUT,k,".data] ∧
    proj (loadFromWAL (some (fileOf (walLog (run (freshWithWal 1 0)
        [(.put "k".data [], 0)])))) (mkCache 1 0) 0).2 = [] ∧
    proj (loadFromWAL (some (fileOf (walLog (run (freshWithWal 1 0)
        [(.put "k".data [], 0)])))) (mkCache 1 0) 0).2 ≠
      proj (run (freshWithWal 1 0) [(.put "k".data [], 0)]) := by
  decide

/-- C1 (corrected).  For every sequence of put/remove operations whose
keys and values are non-empty and free of comma and newline (the log
format's reserved bytes, §4.2), run against a fresh cache with the WAL
attached and healthy, replaying the resulting log file into a fresh empty
cache of the same configured capacity succeeds and yields the same
bindings in the same recency order (equality up to timestamps) and the
same capacity.  Empty values (and empty keys for remove) are excluded:
their records replay as malformed (see the counterexample). -/
theorem claim_c1_replay_refinement (cap : Nat) (ttl : Int)
    (ops : List (Op × Nat)) (nowR : Nat)
    (hops : ∀ p ∈ ops, GoodOp p.1) :
    (loadFromWAL (some (fileOf (walLog (run (freshWithWal cap ttl) ops))))
        (mkCache cap ttl) nowR).1 = true ∧
    proj (loadFromWAL (some (fileOf (walLog (run (freshWithWal cap ttl) ops))))
        (mkCache cap ttl) nowR).2 = proj (run (freshWithWal cap ttl) ops) ∧
    (loadFromWAL (some (fileOf (walLog (run (freshWithWal cap ttl) ops))))
        (mkCache cap ttl) nowR).2.capacity =
      (run (freshWithWal cap ttl) ops).capacity := by
  have hco : Corr nowR (freshWithWal cap ttl) (mkCache cap ttl) := by
    refine ⟨WF.fresh_with_wal cap ttl, WF.mk_cache cap ttl, rfl, rfl, ?_, [], rfl, ?_⟩
    · intro n hn
      cases hn
    · intro e he
      cases he
  obtain ⟨new, hnl, hwlog, hcorr⟩ := corr_run hco hops
  have hnew : walLog (run (freshWithWal cap ttl) ops) = new := by
    rw [hwlog]
    rfl
  have hlines : splitString '\n' (fileOf new) = new := splitString_fileOf new hnl
  obtain ⟨hwfc, hwfr, hproj, hcap, hts, hwal⟩ := hcorr
  refine ⟨rfl, ?_, ?_⟩
  · show proj (replayLines (mkCache cap ttl)
      (splitString '\n' (fileOf (walLog (run (freshWithWal cap ttl) ops)))) nowR) = _
    rw [hnew, hlines]
    exact hproj
  · show (replayLines (mkCache cap ttl)
      (splitString '\n' (fileOf (walLog (run (freshWithWal cap ttl) ops)))) nowR).capacity = _
    rw [hnew, hlines]
    exact hcap

/-- C1 witness: the S4 scenario — Put(A,1), Put(B,2), Delete(A), Put(C,3)
on a capacity-3 cache — replayed from its log reproduces the final
bindings `C ↦ 3, B ↦ 2` in recency order. -/
theorem claim_c1_replay_refinement_witness :
    (∀ p ∈ ([(.put "A".data "1".data, 0), (.put "B".data "2".data, 1),
        (.del "A".data, 2), (.put "C".data "3".data, 3)] : List (Op × Nat)),
      GoodOp p.1) ∧
    proj (loadFromWAL (some (fileOf (walLog (run (freshWithWal 3 0)
        [(.put "A".data "1".data, 0), (.put "B".data "2".data, 1),
         (.del "A".data, 2), (.put "C".data "3".data, 3)]))))
        (mkCache 3 0) 9).2 =
      proj (run (freshWithWal 3 0)
        [(.put "A".data "1".data, 0), (.put "B".data "2".data, 1),
         (.del "A".data, 2), (.put "C".data "3".data, 3)]) :=
  ⟨by decide,
   (claim_c1_replay_refinement 3 0
      [(.put "A".data "1".data, 0), (.put "B".data "2".data, 1),
       (.del "A".data, 2), (.put "C".data "3".data, 3)] 9 (by decide)).2.1⟩

end LRUCache
